import Mathlib

/-!
Verification of the `LockFreeSPSC` single-producer/single-consumer ring
buffer (`src/include/LockFreeSPSC.h`).

The C++ class is embedded shallowly: the class state (the backing array
`buffer_`, the cursors `head_` and `tail_`, and the private shadow copies
`cached_head_` and `cached_tail_`) becomes a Lean structure, and each
member function becomes a pure Lean function from state to result × state.
Atomic loads/stores are modelled as plain reads/writes of the state fields:
this is the sequential (interleaved, single-call-at-a-time) semantics of
the data structure. Machine `size_t` indices are modelled as `Nat`; all
arithmetic in the source is `% buffer_size` with `buffer_size = Capacity+1`,
so no overflow reasoning is needed.
-/

/-- The state of a `LockFreeSPSC<T, Capacity>` object, fields in source
declaration order: the backing store `buffer_` (a list of length
`Capacity + 1`), the consumer-owned cursor `head_` with its shadow
`cached_tail_`, and the producer-owned cursor `tail_` with its shadow
`cached_head_`.  All cursors start at 0, as in the member initializers. -/
structure SPSCState (T : Type) where
  buffer_ : List T
  head_ : Nat
  cached_tail_ : Nat
  tail_ : Nat
  cached_head_ : Nat
deriving DecidableEq, Repr

attribute [ext] SPSCState

namespace LockFreeSPSC

variable {T : Type}

/-- `static constexpr size_t buffer_size = Capacity + 1;` -/
def buffer_size (Capacity : Nat) : Nat := Capacity + 1

/-- `next_index(current_idx) = (current_idx + 1) % buffer_size`. -/
def next_index (Capacity current_idx : Nat) : Nat :=
  (current_idx + 1) % buffer_size Capacity

/-- `bool push(const T& item)` (lines 54–76 of the header): read `tail_`,
compute `next_tail`; if `next_tail == cached_head_`, refresh `cached_head_`
from `head_` and, if still equal, return `false`; otherwise write the item
into `buffer_[current_tail]`, store `next_tail` into `tail_`, return
`true`. -/
def push (Capacity : Nat) (item : T) (s : SPSCState T) : Bool × SPSCState T :=
  let current_tail := s.tail_
  let next_tail := next_index Capacity current_tail
  if next_tail = s.cached_head_ then
    let refreshed_head := s.head_
    if next_tail = refreshed_head then
      (false, { s with cached_head_ := refreshed_head })
    else
      (true, { s with cached_head_ := refreshed_head,
                      buffer_ := s.buffer_.set current_tail item,
                      tail_ := next_tail })
  else
    (true, { s with buffer_ := s.buffer_.set current_tail item,
                    tail_ := next_tail })

/-- `std::optional<T> pop()` (lines 78–99 of the header): read `head_`;
if `head_ == cached_tail_`, refresh `cached_tail_` from `tail_` and, if
still equal, return `nullopt`; otherwise read `buffer_[current_head]`,
store `next_index(current_head)` into `head_`, and return the item. -/
def pop [Inhabited T] (Capacity : Nat) (s : SPSCState T) :
    Option T × SPSCState T :=
  let current_head := s.head_
  if current_head = s.cached_tail_ then
    let refreshed_tail := s.tail_
    if current_head = refreshed_tail then
      (none, { s with cached_tail_ := refreshed_tail })
    else
      (some (s.buffer_.getD current_head default),
       { s with cached_tail_ := refreshed_tail,
                head_ := next_index Capacity current_head })
  else
    (some (s.buffer_.getD current_head default),
     { s with head_ := next_index Capacity current_head })

/-- `bool empty() const`: load `head_` and `tail_` and compare. -/
def empty (s : SPSCState T) : Bool := s.head_ == s.tail_

/-- `bool full() const`: compare `next_index(tail_)` with `head_`. -/
def full (Capacity : Nat) (s : SPSCState T) : Bool :=
  next_index Capacity s.tail_ == s.head_

/-- A freshly constructed queue: all four cursors are zero-initialized;
the backing array is default-initialized (its contents are arbitrary, so
the model takes them as a parameter). -/
def initState (buf : List T) : SPSCState T :=
  { buffer_ := buf, head_ := 0, cached_tail_ := 0, tail_ := 0,
    cached_head_ := 0 }

/-- States reachable from a freshly constructed queue of logical capacity
`Capacity` by any sequence of `push` and `pop` calls. -/
inductive Reachable [Inhabited T] (Capacity : Nat) : SPSCState T → Prop where
  | init (buf : List T) (hbuf : buf.length = buffer_size Capacity) :
      Reachable Capacity (initState buf)
  | push (item : T) {s : SPSCState T} (hs : Reachable Capacity s) :
      Reachable Capacity (push Capacity item s).2
  | pop {s : SPSCState T} (hs : Reachable Capacity s) :
      Reachable Capacity (pop Capacity s).2

/-- The logical number of items between cursor positions `h` (read side)
and `t` (write side): `(t - h) mod (Capacity + 1)`, written with `Nat`
arithmetic that cannot truncate. -/
def itemCount (Capacity h t : Nat) : Nat :=
  (t + buffer_size Capacity - h) % buffer_size Capacity

/-- The sequential-model invariant: cursors are in range, the backing
store has its fixed length, the producer's shadow `cached_head_` never
under-estimates occupancy, and the consumer's shadow `cached_tail_` never
over-estimates it. -/
def Inv (Capacity : Nat) (s : SPSCState T) : Prop :=
  s.buffer_.length = buffer_size Capacity ∧
  s.head_ < buffer_size Capacity ∧
  s.tail_ < buffer_size Capacity ∧
  s.cached_head_ < buffer_size Capacity ∧
  s.cached_tail_ < buffer_size Capacity ∧
  itemCount Capacity s.head_ s.tail_ ≤
    itemCount Capacity s.cached_head_ s.tail_ ∧
  itemCount Capacity s.head_ s.cached_tail_ ≤
    itemCount Capacity s.head_ s.tail_

/-- The abstract FIFO contents of the queue: the `itemCount` live slots
starting at `head_`, in ring order. -/
def absQueue [Inhabited T] (Capacity : Nat) (s : SPSCState T) : List T :=
  (List.range (itemCount Capacity s.head_ s.tail_)).map
    (fun i => s.buffer_.getD ((s.head_ + i) % buffer_size Capacity) default)

/-- Push a whole sequence of values, failing (`none`) if any push is
rejected. -/
def pushList (Capacity : Nat) (vals : List T) (s : SPSCState T) :
    Option (SPSCState T) :=
  match vals with
  | [] => some s
  | v :: vs =>
    match push Capacity v s with
    | (true, s') => pushList Capacity vs s'
    | (false, _) => none

/-- Drain the queue by repeated `pop` until it reports absent (bounded by
`fuel` calls), collecting the popped values in order. -/
def drain [Inhabited T] (Capacity fuel : Nat) (s : SPSCState T) :
    List T × SPSCState T :=
  match fuel with
  | 0 => ([], s)
  | fuel' + 1 =>
    match pop Capacity s with
    | (none, s') => ([], s')
    | (some v, s') =>
      let r := drain Capacity fuel' s'
      (v :: r.1, r.2)

end LockFreeSPSC

namespace LockFreeSPSC

variable {T : Type}

/-! ### Modular index arithmetic -/

theorem mod_two_cases (m x : Nat) (hx : x < 2 * m) :
    x % m = if x < m then x else x - m := by
  split
  · exact Nat.mod_eq_of_lt (by assumption)
  · rw [Nat.mod_eq_sub_mod (by omega)]
    exact Nat.mod_eq_of_lt (by omega)

theorem buffer_size_pos (Capacity : Nat) : 0 < buffer_size Capacity := by
  simp [buffer_size]

theorem itemCount_lt (Capacity h t : Nat) :
    itemCount Capacity h t < buffer_size Capacity :=
  Nat.mod_lt _ (buffer_size_pos Capacity)

theorem itemCount_eq (Capacity h t : Nat)
    (hh : h < buffer_size Capacity) (ht : t < buffer_size Capacity) :
    itemCount Capacity h t =
      if h ≤ t then t - h else t + buffer_size Capacity - h := by
  unfold itemCount buffer_size at *
  rw [mod_two_cases _ _ (by omega)]
  split <;> split <;> omega

theorem next_index_eq (Capacity t : Nat) (ht : t < buffer_size Capacity) :
    next_index Capacity t = if t = Capacity then 0 else t + 1 := by
  unfold next_index buffer_size at *
  rw [mod_two_cases _ _ (by omega)]
  split <;> split <;> omega

theorem next_index_lt (Capacity t : Nat) :
    next_index Capacity t < buffer_size Capacity :=
  Nat.mod_lt _ (buffer_size_pos Capacity)

theorem itemCount_eq_zero_iff (Capacity h t : Nat)
    (hh : h < buffer_size Capacity) (ht : t < buffer_size Capacity) :
    itemCount Capacity h t = 0 ↔ h = t := by
  rw [itemCount_eq Capacity h t hh ht]
  unfold buffer_size at *
  split <;> omega

theorem itemCount_eq_cap_iff (Capacity h t : Nat)
    (hh : h < buffer_size Capacity) (ht : t < buffer_size Capacity) :
    itemCount Capacity h t = Capacity ↔ next_index Capacity t = h := by
  rw [itemCount_eq Capacity h t hh ht, next_index_eq Capacity t ht]
  unfold buffer_size at *
  split <;> split <;> omega

theorem itemCount_next_t (Capacity h t : Nat)
    (hh : h < buffer_size Capacity) (ht : t < buffer_size Capacity)
    (hlt : itemCount Capacity h t < Capacity) :
    itemCount Capacity h (next_index Capacity t) =
      itemCount Capacity h t + 1 := by
  have h2 := itemCount_eq Capacity h (next_index Capacity t) hh
    (next_index_lt Capacity t)
  rw [itemCount_eq Capacity h t hh ht] at hlt
  rw [itemCount_eq Capacity h t hh ht, h2, next_index_eq Capacity t ht]
  unfold buffer_size at *
  split_ifs at * <;> omega

theorem itemCount_next_h (Capacity h t : Nat)
    (hh : h < buffer_size Capacity) (ht : t < buffer_size Capacity)
    (hpos : 0 < itemCount Capacity h t) :
    itemCount Capacity (next_index Capacity h) t =
      itemCount Capacity h t - 1 := by
  have h2 := itemCount_eq Capacity (next_index Capacity h) t
    (next_index_lt Capacity h) ht
  rw [itemCount_eq Capacity h t hh ht] at hpos
  rw [itemCount_eq Capacity h t hh ht, h2, next_index_eq Capacity h hh]
  unfold buffer_size at *
  split_ifs at * <;> omega

/-- The slot index of the `i`-th live item never collides with the write
position `t` while `i` is below the live count. -/
theorem ringPos_ne (Capacity h t i : Nat)
    (hh : h < buffer_size Capacity) (ht : t < buffer_size Capacity)
    (hi : i < itemCount Capacity h t) :
    (h + i) % buffer_size Capacity ≠ t := by
  rw [itemCount_eq Capacity h t hh ht] at hi
  rw [mod_two_cases _ _ (by
    unfold buffer_size at *
    split at hi <;> omega)]
  unfold buffer_size at *
  split at hi <;> split <;> omega

/-- The write position `t` is exactly slot number `itemCount` past `h`. -/
theorem ringPos_count (Capacity h t : Nat)
    (hh : h < buffer_size Capacity) (ht : t < buffer_size Capacity) :
    (h + itemCount Capacity h t) % buffer_size Capacity = t := by
  rw [itemCount_eq Capacity h t hh ht]
  rw [mod_two_cases _ _ (by
    unfold buffer_size at *
    split <;> omega)]
  unfold buffer_size at *
  split <;> split <;> omega

/-- Stepping the read cursor shifts ring positions by one. -/
theorem ringPos_next (Capacity h i : Nat) :
    (next_index Capacity h + i) % buffer_size Capacity =
      (h + (i + 1)) % buffer_size Capacity := by
  unfold next_index
  rw [Nat.mod_add_mod]
  ring_nf

/-! ### Reading a list after `set` -/

theorem getD_set_ne (l : List T) (i j : Nat) (a d : T) (hij : i ≠ j) :
    (l.set i a).getD j d = l.getD j d := by
  simp [List.getD, List.get?_eq_getElem?, List.getElem?_set_ne hij]

theorem getD_set_self (l : List T) (i : Nat) (a d : T) (hi : i < l.length) :
    (l.set i a).getD i d = a := by
  simp [List.getD, List.get?_eq_getElem?, List.getElem?_set_self hi]

/-! ### Behaviour of `push` and `pop` on the failure paths -/

/-- When the queue is full, `push` returns `false` and the state is
unchanged (the refreshed `cached_head_` already equals `head_`). -/
theorem push_fail (Capacity : Nat) (item : T) (s : SPSCState T)
    (hInv : Inv Capacity s)
    (hfull : itemCount Capacity s.head_ s.tail_ = Capacity) :
    push Capacity item s = (false, s) := by
  obtain ⟨hbuf, hh, ht, hch, hct, hprod, hcons⟩ := hInv
  have hnh : next_index Capacity s.tail_ = s.head_ :=
    (itemCount_eq_cap_iff Capacity s.head_ s.tail_ hh ht).1 hfull
  have hcap : itemCount Capacity s.cached_head_ s.tail_ = Capacity := by
    have := itemCount_lt Capacity s.cached_head_ s.tail_
    unfold buffer_size at this
    omega
  have hnch : next_index Capacity s.tail_ = s.cached_head_ :=
    (itemCount_eq_cap_iff Capacity s.cached_head_ s.tail_ hch ht).1 hcap
  have hcheq : s.cached_head_ = s.head_ := by rw [← hnch, hnh]
  unfold push
  simp only [hnh, hcheq, if_pos rfl]
  exact congrArg (Prod.mk false) (by ext <;> simp [hcheq])

/-- When the queue is empty, `pop` returns `none` and the state is
unchanged (the refreshed `cached_tail_` already equals `tail_`). -/
theorem pop_fail [Inhabited T] (Capacity : Nat) (s : SPSCState T)
    (hInv : Inv Capacity s)
    (hempty : itemCount Capacity s.head_ s.tail_ = 0) :
    pop Capacity s = (none, s) := by
  obtain ⟨hbuf, hh, ht, hch, hct, hprod, hcons⟩ := hInv
  have hhteq : s.head_ = s.tail_ :=
    (itemCount_eq_zero_iff Capacity s.head_ s.tail_ hh ht).1 hempty
  have hc0 : itemCount Capacity s.head_ s.cached_tail_ = 0 := by omega
  have hhcteq : s.head_ = s.cached_tail_ :=
    (itemCount_eq_zero_iff Capacity s.head_ s.cached_tail_ hh hct).1 hc0
  unfold pop
  simp only [← hhcteq, ← hhteq, if_pos rfl]
  exact congrArg (Prod.mk none) (by ext <;> simp [← hhcteq, ← hhteq])

/-! ### Behaviour of `push` and `pop` on the success paths -/

/-- Any post-state with the shape produced by a successful `push` (item
written at `tail_`, `tail_` advanced, read side untouched) satisfies the
invariant and appends the item to the abstract queue. -/
theorem push_shape [Inhabited T] (Capacity : Nat) (item : T)
    (s s' : SPSCState T)
    (hbuf : s.buffer_.length = buffer_size Capacity)
    (hh : s.head_ < buffer_size Capacity)
    (ht : s.tail_ < buffer_size Capacity)
    (hct : s.cached_tail_ < buffer_size Capacity)
    (hcons : itemCount Capacity s.head_ s.cached_tail_ ≤
      itemCount Capacity s.head_ s.tail_)
    (hroom : itemCount Capacity s.head_ s.tail_ < Capacity)
    (h1 : s'.head_ = s.head_)
    (h2 : s'.tail_ = next_index Capacity s.tail_)
    (h3 : s'.buffer_ = s.buffer_.set s.tail_ item)
    (h4 : s'.cached_tail_ = s.cached_tail_)
    (h5 : s'.cached_head_ < buffer_size Capacity)
    (h6 : itemCount Capacity s.head_ s.tail_ + 1 ≤
      itemCount Capacity s'.cached_head_ s'.tail_) :
    Inv Capacity s' ∧ absQueue Capacity s' = absQueue Capacity s ++ [item] := by
  have hcnt : itemCount Capacity s'.head_ s'.tail_ =
      itemCount Capacity s.head_ s.tail_ + 1 := by
    rw [h1, h2]
    exact itemCount_next_t Capacity s.head_ s.tail_ hh ht hroom
  constructor
  · refine ⟨?_, ?_, ?_, ?_, ?_, ?_, ?_⟩
    · rw [h3, List.length_set, hbuf]
    · rw [h1]; exact hh
    · rw [h2]; exact next_index_lt Capacity s.tail_
    · exact h5
    · rw [h4]; exact hct
    · omega
    · rw [h1, h4, h2, itemCount_next_t Capacity s.head_ s.tail_ hh ht hroom]
      omega
  · unfold absQueue
    rw [hcnt, h1, h3, List.range_succ, List.map_append]
    congr 1
    · apply List.map_congr_left
      intro i hi
      rw [List.mem_range] at hi
      refine getD_set_ne _ _ _ _ _ (fun hcontra => ?_)
      exact ringPos_ne Capacity s.head_ s.tail_ i hh ht hi hcontra.symm
    · rw [List.map_cons, List.map_nil,
        ringPos_count Capacity s.head_ s.tail_ hh ht,
        getD_set_self _ _ _ _ (hbuf ▸ ht)]

/-- If the queue has room, `push` succeeds, preserves the invariant, and
appends the item to the abstract queue. -/
theorem push_succ [Inhabited T] (Capacity : Nat) (item : T) (s : SPSCState T)
    (hInv : Inv Capacity s)
    (hroom : itemCount Capacity s.head_ s.tail_ < Capacity) :
    (push Capacity item s).1 = true ∧
    Inv Capacity (push Capacity item s).2 ∧
    absQueue Capacity (push Capacity item s).2 =
      absQueue Capacity s ++ [item] := by
  obtain ⟨hbuf, hh, ht, hch, hct, hprod, hcons⟩ := hInv
  have hnh : next_index Capacity s.tail_ ≠ s.head_ := by
    intro hcontra
    have := (itemCount_eq_cap_iff Capacity s.head_ s.tail_ hh ht).2 hcontra
    omega
  by_cases hc : next_index Capacity s.tail_ = s.cached_head_
  · -- slow path: the cache says full, the refresh from `head_` clears it
    have hpair : push Capacity item s =
        (true, { s with cached_head_ := s.head_,
                        buffer_ := s.buffer_.set s.tail_ item,
                        tail_ := next_index Capacity s.tail_ }) := by
      unfold push
      simp only [if_pos hc, if_neg hnh]
    refine ⟨by rw [hpair], ?_, ?_⟩ <;> rw [hpair] <;>
      refine (push_shape Capacity item s
        { s with cached_head_ := s.head_,
                 buffer_ := s.buffer_.set s.tail_ item,
                 tail_ := next_index Capacity s.tail_ }
        hbuf hh ht hct hcons hroom rfl rfl rfl rfl hh ?_).elim
        (fun a b => by first | exact a | exact b) <;>
    · show itemCount Capacity s.head_ s.tail_ + 1 ≤
        itemCount Capacity s.head_ (next_index Capacity s.tail_)
      rw [itemCount_next_t Capacity s.head_ s.tail_ hh ht hroom]
  · -- fast path: the cached `head_` already shows a free slot
    have hpair : push Capacity item s =
        (true, { s with buffer_ := s.buffer_.set s.tail_ item,
                        tail_ := next_index Capacity s.tail_ }) := by
      unfold push
      simp only [if_neg hc]
    have hchcap : itemCount Capacity s.cached_head_ s.tail_ < Capacity := by
      have hne : itemCount Capacity s.cached_head_ s.tail_ ≠ Capacity := by
        intro hcontra
        exact hc ((itemCount_eq_cap_iff Capacity s.cached_head_ s.tail_ hch
          ht).1 hcontra)
      have := itemCount_lt Capacity s.cached_head_ s.tail_
      unfold buffer_size at this
      omega
    refine ⟨by rw [hpair], ?_, ?_⟩ <;> rw [hpair] <;>
      refine (push_shape Capacity item s
        { s with buffer_ := s.buffer_.set s.tail_ item,
                 tail_ := next_index Capacity s.tail_ }
        hbuf hh ht hct hcons hroom rfl rfl rfl rfl hch ?_).elim
        (fun a b => by first | exact a | exact b) <;>
    · show itemCount Capacity s.head_ s.tail_ + 1 ≤
        itemCount Capacity s.cached_head_ (next_index Capacity s.tail_)
      rw [itemCount_next_t Capacity s.cached_head_ s.tail_ hch ht hchcap]
      omega

/-- Any post-state with the shape produced by a successful `pop` (`head_`
advanced, write side and buffer untouched) satisfies the invariant, and
the pre-state's abstract queue is the read item followed by the
post-state's abstract queue. -/
theorem pop_shape [Inhabited T] (Capacity : Nat) (s s' : SPSCState T)
    (hbuf : s.buffer_.length = buffer_size Capacity)
    (hh : s.head_ < buffer_size Capacity)
    (ht : s.tail_ < buffer_size Capacity)
    (hch : s.cached_head_ < buffer_size Capacity)
    (hprod : itemCount Capacity s.head_ s.tail_ ≤
      itemCount Capacity s.cached_head_ s.tail_)
    (hpos : 0 < itemCount Capacity s.head_ s.tail_)
    (h1 : s'.head_ = next_index Capacity s.head_)
    (h2 : s'.tail_ = s.tail_)
    (h3 : s'.buffer_ = s.buffer_)
    (h4 : s'.cached_head_ = s.cached_head_)
    (h5 : s'.cached_tail_ < buffer_size Capacity)
    (h6 : itemCount Capacity s'.head_ s'.cached_tail_ + 1 ≤
      itemCount Capacity s.head_ s.tail_) :
    Inv Capacity s' ∧
    absQueue Capacity s =
      s.buffer_.getD s.head_ default :: absQueue Capacity s' := by
  have hcnt : itemCount Capacity s'.head_ s'.tail_ =
      itemCount Capacity s.head_ s.tail_ - 1 := by
    rw [h1, h2]
    exact itemCount_next_h Capacity s.head_ s.tail_ hh ht hpos
  constructor
  · refine ⟨?_, ?_, ?_, ?_, ?_, ?_, ?_⟩
    · rw [h3]; exact hbuf
    · rw [h1]; exact next_index_lt Capacity s.head_
    · rw [h2]; exact ht
    · rw [h4]; exact hch
    · exact h5
    · rw [h1, h2, h4, itemCount_next_h Capacity s.head_ s.tail_ hh ht hpos]
      omega
    · rw [hcnt]
      omega
  · obtain ⟨k, hk⟩ : ∃ k, itemCount Capacity s.head_ s.tail_ = k + 1 :=
      ⟨itemCount Capacity s.head_ s.tail_ - 1, by omega⟩
    have hcnt' : itemCount Capacity s'.head_ s'.tail_ = k := by omega
    unfold absQueue
    rw [hk, hcnt', h1, h3, List.range_succ_eq_map, List.map_cons]
    congr 1
    · rw [Nat.add_zero, Nat.mod_eq_of_lt hh]
    · rw [List.map_map]
      apply List.map_congr_left
      intro i hi
      simp only [Function.comp]
      rw [ringPos_next Capacity s.head_ i]

/-- If the queue is non-empty, `pop` returns the item at `head_`,
preserves the invariant, and removes the front of the abstract queue. -/
theorem pop_succ [Inhabited T] (Capacity : Nat) (s : SPSCState T)
    (hInv : Inv Capacity s)
    (hpos : 0 < itemCount Capacity s.head_ s.tail_) :
    (pop Capacity s).1 = some (s.buffer_.getD s.head_ default) ∧
    Inv Capacity (pop Capacity s).2 ∧
    absQueue Capacity s =
      s.buffer_.getD s.head_ default :: absQueue Capacity (pop Capacity s).2 := by
  obtain ⟨hbuf, hh, ht, hch, hct, hprod, hcons⟩ := hInv
  have hht : s.head_ ≠ s.tail_ := by
    intro hcontra
    have := (itemCount_eq_zero_iff Capacity s.head_ s.tail_ hh ht).2 hcontra
    omega
  by_cases hc : s.head_ = s.cached_tail_
  · -- slow path: the cache says empty, the refresh from `tail_` clears it
    have hpair : pop Capacity s =
        (some (s.buffer_.getD s.head_ default),
         { s with cached_tail_ := s.tail_,
                  head_ := next_index Capacity s.head_ }) := by
      unfold pop
      simp only [if_pos hc, if_neg hht]
    refine ⟨by rw [hpair], ?_, ?_⟩ <;> rw [hpair] <;>
      refine (pop_shape Capacity s
        { s with cached_tail_ := s.tail_,
                 head_ := next_index Capacity s.head_ }
        hbuf hh ht hch hprod hpos rfl rfl rfl rfl ht ?_).elim
        (fun a b => by first | exact a | exact b) <;>
    · show itemCount Capacity (next_index Capacity s.head_) s.tail_ + 1 ≤
        itemCount Capacity s.head_ s.tail_
      rw [itemCount_next_h Capacity s.head_ s.tail_ hh ht hpos]
      omega
  · -- fast path: the cached `tail_` already shows an available item
    have hpair : pop Capacity s =
        (some (s.buffer_.getD s.head_ default),
         { s with head_ := next_index Capacity s.head_ }) := by
      unfold pop
      simp only [if_neg hc]
    have hctpos : 0 < itemCount Capacity s.head_ s.cached_tail_ := by
      have hne : itemCount Capacity s.head_ s.cached_tail_ ≠ 0 := by
        intro hcontra
        exact hc ((itemCount_eq_zero_iff Capacity s.head_ s.cached_tail_ hh
          hct).1 hcontra)
      omega
    refine ⟨by rw [hpair], ?_, ?_⟩ <;> rw [hpair] <;>
      refine (pop_shape Capacity s
        { s with head_ := next_index Capacity s.head_ }
        hbuf hh ht hch hprod hpos rfl rfl rfl rfl hct ?_).elim
        (fun a b => by first | exact a | exact b) <;>
    · show itemCount Capacity (next_index Capacity s.head_) s.cached_tail_ + 1 ≤
        itemCount Capacity s.head_ s.tail_
      rw [itemCount_next_h Capacity s.head_ s.cached_tail_ hh hct hctpos]
      omega

/-! ### The invariant on reachable states -/

theorem itemCount_init (Capacity : Nat) : itemCount Capacity 0 0 = 0 := by
  simp [itemCount, buffer_size]

theorem Inv_init (Capacity : Nat) (buf : List T)
    (hbuf : buf.length = buffer_size Capacity) :
    Inv Capacity (initState buf) := by
  refine ⟨hbuf, ?_, ?_, ?_, ?_, ?_, ?_⟩ <;>
    simp [initState, buffer_size, itemCount_init]

theorem absQueue_length [Inhabited T] (Capacity : Nat) (s : SPSCState T) :
    (absQueue Capacity s).length = itemCount Capacity s.head_ s.tail_ := by
  simp [absQueue]

theorem absQueue_of_count_zero [Inhabited T] (Capacity : Nat)
    (s : SPSCState T) (h0 : itemCount Capacity s.head_ s.tail_ = 0) :
    absQueue Capacity s = [] := by
  unfold absQueue
  rw [h0]
  rfl

theorem absQueue_init [Inhabited T] (Capacity : Nat) (buf : List T) :
    absQueue Capacity (initState buf) = [] :=
  absQueue_of_count_zero Capacity _ (itemCount_init Capacity)

theorem reachable_inv [Inhabited T] (Capacity : Nat) (s : SPSCState T)
    (hr : Reachable Capacity s) : Inv Capacity s := by
  induction hr with
  | init buf hbuf => exact Inv_init Capacity buf hbuf
  | @push item t _ ih =>
    rcases Nat.lt_or_ge (itemCount Capacity t.head_ t.tail_) Capacity with
      hroom | hge
    · exact (push_succ Capacity item t ih hroom).2.1
    · have hcap : itemCount Capacity t.head_ t.tail_ = Capacity := by
        have := itemCount_lt Capacity t.head_ t.tail_
        unfold buffer_size at this
        omega
      rw [push_fail Capacity item t ih hcap]
      exact ih
  | @pop t _ ih =>
    by_cases h0 : itemCount Capacity t.head_ t.tail_ = 0
    · rw [pop_fail Capacity t ih h0]
      exact ih
    · exact (pop_succ Capacity t ih (by omega)).2.1

/-! ### Multi-step operations -/

/-- If every push of `vals` succeeds, the final state satisfies the
invariant and the abstract queue has grown by exactly `vals`. -/
theorem pushList_sound [Inhabited T] (Capacity : Nat) (vals : List T) :
    ∀ s s' : SPSCState T, Inv Capacity s →
      pushList Capacity vals s = some s' →
      Inv Capacity s' ∧
      absQueue Capacity s' = absQueue Capacity s ++ vals := by
  induction vals with
  | nil =>
    intro s s' hInv hp
    unfold pushList at hp
    cases hp
    exact ⟨hInv, by simp⟩
  | cons v vs ih =>
    intro s s' hInv hp
    unfold pushList at hp
    rcases Nat.lt_or_ge (itemCount Capacity s.head_ s.tail_) Capacity with
      hroom | hge
    · obtain ⟨hb, hInv', habs⟩ := push_succ Capacity v s hInv hroom
      have hpair : push Capacity v s = (true, (push Capacity v s).2) := by
        rw [← hb]
      rw [hpair] at hp
      obtain ⟨hInv'', habs'⟩ := ih (push Capacity v s).2 s' hInv' hp
      refine ⟨hInv'', ?_⟩
      rw [habs', habs, List.append_assoc, List.singleton_append]
    · have hcap : itemCount Capacity s.head_ s.tail_ = Capacity := by
        have := itemCount_lt Capacity s.head_ s.tail_
        unfold buffer_size at this
        omega
      rw [push_fail Capacity v s hInv hcap] at hp
      exact Option.noConfusion hp

/-- If the queue has room for all of `vals`, pushing each of them
succeeds. -/
theorem pushList_complete [Inhabited T] (Capacity : Nat) (vals : List T) :
    ∀ s : SPSCState T, Inv Capacity s →
      itemCount Capacity s.head_ s.tail_ + vals.length ≤ Capacity →
      ∃ s', pushList Capacity vals s = some s' ∧ Inv Capacity s' ∧
        absQueue Capacity s' = absQueue Capacity s ++ vals := by
  induction vals with
  | nil =>
    intro s hInv _
    exact ⟨s, rfl, hInv, by simp⟩
  | cons v vs ih =>
    intro s hInv hlen
    have hroom : itemCount Capacity s.head_ s.tail_ < Capacity := by
      simp only [List.length_cons] at hlen
      omega
    obtain ⟨hb, hInv', habs⟩ := push_succ Capacity v s hInv hroom
    have hcnt' : itemCount Capacity (push Capacity v s).2.head_
        (push Capacity v s).2.tail_ =
        itemCount Capacity s.head_ s.tail_ + 1 := by
      have := congrArg List.length habs
      simpa [absQueue_length] using this
    obtain ⟨s', hps', hInv'', habs'⟩ := ih (push Capacity v s).2 hInv' (by
      simp only [List.length_cons] at hlen
      omega)
    refine ⟨s', ?_, hInv'', ?_⟩
    · have hpair : push Capacity v s = (true, (push Capacity v s).2) := by
        rw [← hb]
      show (match push Capacity v s with
        | (true, t) => pushList Capacity vs t
        | (false, _) => none) = some s'
      rw [hpair]
      exact hps'
    · rw [habs', habs, List.append_assoc, List.singleton_append]

/-- Draining with enough fuel returns exactly the abstract queue contents
and leaves an empty queue satisfying the invariant. -/
theorem drain_sound [Inhabited T] (Capacity : Nat) (fuel : Nat) :
    ∀ s : SPSCState T, Inv Capacity s →
      itemCount Capacity s.head_ s.tail_ ≤ fuel →
      (drain Capacity fuel s).1 = absQueue Capacity s ∧
      Inv Capacity (drain Capacity fuel s).2 ∧
      itemCount Capacity (drain Capacity fuel s).2.head_
        (drain Capacity fuel s).2.tail_ = 0 := by
  induction fuel with
  | zero =>
    intro s hInv hle
    have h0 : itemCount Capacity s.head_ s.tail_ = 0 := by omega
    exact ⟨(absQueue_of_count_zero Capacity s h0).symm, hInv, h0⟩
  | succ fuel ih =>
    intro s hInv hle
    by_cases h0 : itemCount Capacity s.head_ s.tail_ = 0
    · have hd : drain Capacity (fuel + 1) s = ([], s) := by
        unfold drain
        rw [pop_fail Capacity s hInv h0]
      rw [hd]
      exact ⟨(absQueue_of_count_zero Capacity s h0).symm, hInv, h0⟩
    · have hpos : 0 < itemCount Capacity s.head_ s.tail_ := by omega
      obtain ⟨hv, hInv', habs⟩ := pop_succ Capacity s hInv hpos
      rcases hp : pop Capacity s with ⟨o, s2⟩
      rw [hp] at hv hInv' habs
      simp only at hv hInv' habs
      subst hv
      have hd : drain Capacity (fuel + 1) s =
          (s.buffer_.getD s.head_ default :: (drain Capacity fuel s2).1,
           (drain Capacity fuel s2).2) := by
        simp only [drain, hp]
      have hcnt' : itemCount Capacity s2.head_ s2.tail_ + 1 =
          itemCount Capacity s.head_ s.tail_ := by
        have := congrArg List.length habs
        simpa [absQueue_length] using this.symm
      obtain ⟨hd1, hd2, hd3⟩ := ih s2 hInv' (by omega)
      rw [hd]
      exact ⟨by rw [hd1, ← habs], hd2, hd3⟩

/-! ### The claims -/

/-- C1: for every capacity `Capacity ≥ 1` and every sequence of values,
if from any empty queue state reached by an arbitrary interleaving of
`push`/`pop` calls (in particular a fresh queue) the producer pushes the
sequence with every push succeeding and the consumer then drains by
repeated `pop`, the pops return exactly the pushed values in the same
order, each exactly once (FIFO, no loss, no duplication). -/
theorem fifo_no_loss_no_dup {T : Type} [Inhabited T] (Capacity : Nat)
    (hC : 1 ≤ Capacity) (s : SPSCState T) (hr : Reachable Capacity s)
    (hemp : s.head_ = s.tail_)
    (vals : List T) (s' : SPSCState T)
    (hpush : pushList Capacity vals s = some s')
    (fuel : Nat) (hfuel : vals.length ≤ fuel) :
    (drain Capacity fuel s').1 = vals := by
  have hInv := reachable_inv Capacity s hr
  have h0 : itemCount Capacity s.head_ s.tail_ = 0 :=
    (itemCount_eq_zero_iff Capacity s.head_ s.tail_ hInv.2.1 hInv.2.2.1).2
      hemp
  obtain ⟨hInv', habs'⟩ := pushList_sound Capacity vals s s' hInv hpush
  rw [absQueue_of_count_zero Capacity s h0, List.nil_append] at habs'
  have hcnt : itemCount Capacity s'.head_ s'.tail_ = vals.length := by
    rw [← absQueue_length, habs']
  obtain ⟨hd1, _, _⟩ := drain_sound Capacity fuel s' hInv' (by omega)
  rw [hd1, habs']

theorem fifo_no_loss_no_dup_witness :
    (drain 2 2 (⟨[5, 7, 9], 0, 0, 2, 0⟩ : SPSCState Nat)).1 = [5, 7] :=
  fifo_no_loss_no_dup 2 (by decide) (initState [9, 9, 9])
    (Reachable.init [9, 9, 9] (by decide)) rfl [5, 7]
    ⟨[5, 7, 9], 0, 0, 2, 0⟩ (by decide) 2 (by decide)

/-- C2: from a fresh queue of capacity `Capacity ≥ 1`, `Capacity`
consecutive pushes all succeed, the next push fails, no reachable state
ever holds more than `Capacity` live items, and after draining everything
a further push succeeds and `full()` is `false`. -/
theorem capacity_boundary {T : Type} [Inhabited T] (Capacity : Nat)
    (hC : 1 ≤ Capacity) (buf : List T)
    (hbuf : buf.length = buffer_size Capacity)
    (vals : List T) (hlen : vals.length = Capacity) (w w' : T) :
    ∃ s', pushList Capacity vals (initState buf) = some s' ∧
      (push Capacity w s').1 = false ∧
      (∀ u : SPSCState T, Reachable Capacity u →
        itemCount Capacity u.head_ u.tail_ ≤ Capacity) ∧
      (push Capacity w' (drain Capacity Capacity s').2).1 = true ∧
      full Capacity (drain Capacity Capacity s').2 = false := by
  have hInv0 := Inv_init Capacity buf hbuf
  obtain ⟨s', hps, hInv', habs'⟩ := pushList_complete Capacity vals _ hInv0
    (by simp [initState, itemCount_init, hlen])
  have hcnt : itemCount Capacity s'.head_ s'.tail_ = Capacity := by
    rw [← absQueue_length, habs', absQueue_init, List.nil_append, hlen]
  obtain ⟨hd1, hd2, hd3⟩ := drain_sound Capacity Capacity s' hInv' (by omega)
  refine ⟨s', hps, ?_, ?_, ?_, ?_⟩
  · rw [push_fail Capacity w s' hInv' hcnt]
  · intro u _
    have := itemCount_lt Capacity u.head_ u.tail_
    unfold buffer_size at this
    omega
  · exact (push_succ Capacity w' (drain Capacity Capacity s').2 hd2
      (by omega)).1
  · obtain ⟨_, hdh, hdt, _⟩ := hd2
    have hne : next_index Capacity (drain Capacity Capacity s').2.tail_ ≠
        (drain Capacity Capacity s').2.head_ := by
      intro hcontra
      have := (itemCount_eq_cap_iff Capacity
        (drain Capacity Capacity s').2.head_
        (drain Capacity Capacity s').2.tail_ hdh hdt).2 hcontra
      omega
    simp only [full, beq_eq_false_iff_ne, ne_eq]
    exact hne

theorem capacity_boundary_witness :
    ∃ s', pushList 1 [4] (initState ([3, 3] : List Nat)) = some s' ∧
      (push 1 6 s').1 = false ∧
      (∀ u : SPSCState Nat, Reachable 1 u →
        itemCount 1 u.head_ u.tail_ ≤ 1) ∧
      (push 1 6 (drain 1 1 s').2).1 = true ∧
      full 1 (drain 1 1 s').2 = false :=
  capacity_boundary 1 (by decide) [3, 3] (by decide) [4] (by decide) 6 6

/-- C3: `pop` on a reachable state with `head_ == tail_` (in particular a
freshly constructed queue) returns absent and leaves the state unchanged,
never a stale or default element. -/
theorem pop_empty_absent {T : Type} [Inhabited T] (Capacity : Nat)
    (s : SPSCState T) (hr : Reachable Capacity s) (he : s.head_ = s.tail_) :
    pop Capacity s = (none, s) := by
  have hInv := reachable_inv Capacity s hr
  exact pop_fail Capacity s hInv
    ((itemCount_eq_zero_iff Capacity s.head_ s.tail_ hInv.2.1 hInv.2.2.1).2 he)

theorem pop_empty_absent_witness :
    pop 1 (initState ([0, 0] : List Nat)) = (none, initState [0, 0]) :=
  pop_empty_absent 1 (initState [0, 0]) (Reachable.init [0, 0] (by decide))
    rfl

/-- C4: a `push` that returns `false` mutates nothing (no slot written, no
cursor or shadow cursor changed), and a `pop` that returns absent likewise
leaves the state exactly as it was. -/
theorem reject_no_mutation {T : Type} [Inhabited T] (Capacity : Nat)
    (item : T) (s : SPSCState T) :
    ((push Capacity item s).1 = false → (push Capacity item s).2 = s) ∧
    ((pop Capacity s).1 = none → (pop Capacity s).2 = s) := by
  constructor
  · intro hfalse
    by_cases hc : next_index Capacity s.tail_ = s.cached_head_
    · by_cases hn : next_index Capacity s.tail_ = s.head_
      · have hstate : (push Capacity item s).2 =
            { s with cached_head_ := s.head_ } := by
          unfold push
          simp only [if_pos hc, if_pos hn]
        have hcheq : s.cached_head_ = s.head_ := by rw [← hc, hn]
        rw [hstate]
        ext <;> simp [hcheq]
      · have : (push Capacity item s).1 = true := by
          unfold push
          simp only [if_pos hc, if_neg hn]
        simp [this] at hfalse
    · have : (push Capacity item s).1 = true := by
        unfold push
        simp only [if_neg hc]
      simp [this] at hfalse
  · intro hnone
    by_cases hc : s.head_ = s.cached_tail_
    · by_cases hn : s.head_ = s.tail_
      · have hstate : (pop Capacity s).2 =
            { s with cached_tail_ := s.tail_ } := by
          unfold pop
          simp only [if_pos hc, if_pos hn]
        have hcteq : s.cached_tail_ = s.tail_ := by rw [← hc, hn]
        rw [hstate]
        ext <;> simp [hcteq]
      · have : (pop Capacity s).1 =
            some (s.buffer_.getD s.head_ default) := by
          unfold pop
          simp only [if_pos hc, if_neg hn]
        simp [this] at hnone
    · have : (pop Capacity s).1 =
          some (s.buffer_.getD s.head_ default) := by
        unfold pop
        simp only [if_neg hc]
      simp [this] at hnone

theorem reject_no_mutation_witness :
    (push 1 7 (⟨[5, 0], 0, 0, 1, 0⟩ : SPSCState Nat)).2 = ⟨[5, 0], 0, 0, 1, 0⟩ ∧
    (pop 1 (initState ([0, 0] : List Nat))).2 = initState [0, 0] :=
  ⟨(reject_no_mutation 1 7 ⟨[5, 0], 0, 0, 1, 0⟩).1 (by decide),
   (reject_no_mutation 1 0 (initState [0, 0])).2 (by decide)⟩

/-- C5: in every reachable state both cursors lie in `[0, Capacity + 1)`
and the live item count `(tail - head) mod (Capacity + 1)` lies in
`[0, Capacity]`. -/
theorem cursor_range_invariant {T : Type} [Inhabited T] (Capacity : Nat)
    (s : SPSCState T) (hr : Reachable Capacity s) :
    s.head_ < buffer_size Capacity ∧ s.tail_ < buffer_size Capacity ∧
    itemCount Capacity s.head_ s.tail_ ≤ Capacity := by
  have hInv := reachable_inv Capacity s hr
  have := itemCount_lt Capacity s.head_ s.tail_
  unfold buffer_size at this
  exact ⟨hInv.2.1, hInv.2.2.1, by omega⟩

theorem cursor_range_invariant_witness :
    (initState ([0, 0] : List Nat)).head_ < buffer_size 1 ∧
    (initState ([0, 0] : List Nat)).tail_ < buffer_size 1 ∧
    itemCount 1 (initState ([0, 0] : List Nat)).head_
      (initState ([0, 0] : List Nat)).tail_ ≤ 1 :=
  cursor_range_invariant 1 (initState [0, 0])
    (Reachable.init [0, 0] (by decide))

/-- C6: `empty()` returns `true` exactly when `head_ == tail_`, and
`full()` returns `true` exactly when `(tail_ + 1) mod (Capacity + 1) ==
head_`. -/
theorem empty_full_snapshots {T : Type} (Capacity : Nat) (s : SPSCState T) :
    (empty s = true ↔ s.head_ = s.tail_) ∧
    (full Capacity s = true ↔
      (s.tail_ + 1) % buffer_size Capacity = s.head_) := by
  constructor
  · simp [empty]
  · simp [full, next_index]

/-- C7: for every capacity `Capacity ≥ 1` (including the single-slot
queue), the empty condition and the full condition can never hold of the
same state: `empty()` and `full()` never both return `true`. -/
theorem empty_full_mutually_exclusive {T : Type} (Capacity : Nat)
    (hC : 1 ≤ Capacity) (s : SPSCState T) :
    ¬(empty s = true ∧ full Capacity s = true) := by
  rintro ⟨he, hf⟩
  simp [empty] at he
  simp [full, next_index] at hf
  rw [he] at hf
  unfold buffer_size at hf
  have hm : (s.tail_ + 1) % (Capacity + 1) < Capacity + 1 :=
    Nat.mod_lt _ (by omega)
  by_cases hlt : s.tail_ + 1 < Capacity + 1
  · rw [Nat.mod_eq_of_lt hlt] at hf
    omega
  · by_cases hge : s.tail_ + 1 = Capacity + 1
    · rw [hge, Nat.mod_self] at hf
      omega
    · omega

theorem empty_full_mutually_exclusive_witness :
    ¬(empty (initState ([0, 0] : List Nat)) = true ∧
      full 1 (initState ([0, 0] : List Nat)) = true) :=
  empty_full_mutually_exclusive 1 (by decide) (initState [0, 0])

/-- C8: in every reachable state the producer's `cached_head_` never
under-estimates occupancy and the consumer's `cached_tail_` never
over-estimates it; consequently `push`'s fast path only fires when a slot
is genuinely free and `pop`'s fast path only fires when an item is
genuinely present. -/
theorem cached_cursor_safety {T : Type} [Inhabited T] (Capacity : Nat)
    (s : SPSCState T) (hr : Reachable Capacity s) :
    itemCount Capacity s.head_ s.tail_ ≤
      itemCount Capacity s.cached_head_ s.tail_ ∧
    itemCount Capacity s.head_ s.cached_tail_ ≤
      itemCount Capacity s.head_ s.tail_ ∧
    (next_index Capacity s.tail_ ≠ s.cached_head_ →
      itemCount Capacity s.head_ s.tail_ < Capacity) ∧
    (s.head_ ≠ s.cached_tail_ → 0 < itemCount Capacity s.head_ s.tail_) := by
  obtain ⟨hbuf, hh, ht, hch, hct, hprod, hcons⟩ := reachable_inv Capacity s hr
  refine ⟨hprod, hcons, ?_, ?_⟩
  · intro hfast
    have hne : itemCount Capacity s.cached_head_ s.tail_ ≠ Capacity :=
      fun hcontra => hfast
        ((itemCount_eq_cap_iff Capacity s.cached_head_ s.tail_ hch ht).1
          hcontra)
    have := itemCount_lt Capacity s.cached_head_ s.tail_
    unfold buffer_size at this
    omega
  · intro hfast
    have hne : itemCount Capacity s.head_ s.cached_tail_ ≠ 0 :=
      fun hcontra => hfast
        ((itemCount_eq_zero_iff Capacity s.head_ s.cached_tail_ hh hct).1
          hcontra)
    omega

theorem cached_cursor_safety_witness :
    itemCount 2 (initState ([0, 0, 0] : List Nat)).head_
      (initState ([0, 0, 0] : List Nat)).tail_ ≤
      itemCount 2 (initState ([0, 0, 0] : List Nat)).cached_head_
        (initState ([0, 0, 0] : List Nat)).tail_ ∧
    itemCount 2 (initState ([0, 0, 0] : List Nat)).head_
      (initState ([0, 0, 0] : List Nat)).cached_tail_ ≤
      itemCount 2 (initState ([0, 0, 0] : List Nat)).head_
        (initState ([0, 0, 0] : List Nat)).tail_ ∧
    (next_index 2 (initState ([0, 0, 0] : List Nat)).tail_ ≠
        (initState ([0, 0, 0] : List Nat)).cached_head_ →
      itemCount 2 (initState ([0, 0, 0] : List Nat)).head_
        (initState ([0, 0, 0] : List Nat)).tail_ < 2) ∧
    ((initState ([0, 0, 0] : List Nat)).head_ ≠
        (initState ([0, 0, 0] : List Nat)).cached_tail_ →
      0 < itemCount 2 (initState ([0, 0, 0] : List Nat)).head_
        (initState ([0, 0, 0] : List Nat)).tail_) :=
  cached_cursor_safety 2 (initState [0, 0, 0])
    (Reachable.init [0, 0, 0] (by decide))

/-- C9: `push` and `pop` are loop-free total functions: each call returns
at once, and the outcome (success versus full/empty) is decided by a
single pass of cursor comparisons. -/
theorem nonblocking_single_pass {T : Type} [Inhabited T] (Capacity : Nat)
    (item : T) (s : SPSCState T) :
    (push Capacity item s).1 =
      !(next_index Capacity s.tail_ == s.cached_head_ &&
        next_index Capacity s.tail_ == s.head_) ∧
    (pop Capacity s).1.isSome =
      !(s.head_ == s.cached_tail_ && s.head_ == s.tail_) := by
  constructor
  · by_cases hc : next_index Capacity s.tail_ = s.cached_head_
    · by_cases hn : next_index Capacity s.tail_ = s.head_
      · have hlhs : (push Capacity item s).1 = false := by
          unfold push
          simp only [if_pos hc, if_pos hn]
        have hb1 : (next_index Capacity s.tail_ == s.cached_head_) = true := by
          simp [hc]
        have hb2 : (next_index Capacity s.tail_ == s.head_) = true := by
          simp [hn]
        rw [hlhs, hb1, hb2]
        rfl
      · have hlhs : (push Capacity item s).1 = true := by
          unfold push
          simp only [if_pos hc, if_neg hn]
        have hb2 : (next_index Capacity s.tail_ == s.head_) = false := by
          simp [hn]
        rw [hlhs, hb2]
        simp
    · have hlhs : (push Capacity item s).1 = true := by
        unfold push
        simp only [if_neg hc]
      have hb1 : (next_index Capacity s.tail_ == s.cached_head_) = false := by
        simp [hc]
      rw [hlhs, hb1]
      rfl
  · by_cases hc : s.head_ = s.cached_tail_
    · by_cases hn : s.head_ = s.tail_
      · have hlhs : (pop Capacity s).1 = none := by
          unfold pop
          simp only [if_pos hc, if_pos hn]
        have hb1 : (s.head_ == s.cached_tail_) = true := by simp [hc]
        have hb2 : (s.head_ == s.tail_) = true := by simp [hn]
        rw [hlhs, hb1, hb2]
        rfl
      · have hlhs : (pop Capacity s).1 =
            some (s.buffer_.getD s.head_ default) := by
          unfold pop
          simp only [if_pos hc, if_neg hn]
        have hb2 : (s.head_ == s.tail_) = false := by simp [hn]
        rw [hlhs, hb2]
        simp
    · have hlhs : (pop Capacity s).1 =
          some (s.buffer_.getD s.head_ default) := by
        unfold pop
        simp only [if_neg hc]
      have hb1 : (s.head_ == s.cached_tail_) = false := by simp [hc]
      rw [hlhs, hb1]
      rfl

end LockFreeSPSC
